import Mathlib

/-!
Verification development for the DeepSeek MCP tool-chain engine
(`src/cache.ts`, `src/tool-chain.ts`).

The embedding is shallow: JavaScript values flowing through the engine are
modelled by the inductive `JValue` (JSON values; JS numbers are modelled by
`Int`, which covers every value the claims exercise).  Serialized JSON
payloads stored in the cache are modelled by the `JValue` they serialize:
`JSON.stringify` is injective on these values and `JSON.parse` is its
inverse, so a stored string is represented by its value, and a
`JSON.parse`-plus-cast that fails (exception or wrong shape) is modelled by a
decode returning `none`, which the source treats as a cache miss.  Cache
*keys* are genuine strings, built with `jsonStringify` below, which models
`JSON.stringify`'s output format (control-character escapes are omitted; no
claim exercises them).  Time is an explicit `now : Int` in milliseconds,
standing for `Date.now()`.
-/

/-- JSON/JS runtime values (`any` in the TypeScript source). -/
inductive JValue where
  | null : JValue
  | bool : Bool → JValue
  | num : Int → JValue
  | str : String → JValue
  | arr : List JValue → JValue
  | obj : List (String × JValue) → JValue
deriving Repr

/-- A JS object / `Record<string, any>`, as an ordered association list. -/
abbrev JObj := List (String × JValue)

/-- JavaScript's `typeof` operator on a `JValue` (note `typeof null` is
`"object"` in JS, and arrays are objects). -/
def jtypeof : JValue → String
  | .null => "object"
  | .bool _ => "boolean"
  | .num _ => "number"
  | .str _ => "string"
  | .arr _ => "object"
  | .obj _ => "object"

/-- First-match lookup in a JS object, modelling `params[key]` / `key in params`. -/
def plookup : JObj → String → Option JValue
  | [], _ => none
  | (k, v) :: rest, key => if k = key then some v else plookup rest key

/-- `JSON.stringify` escaping for one character (quote and backslash; control
characters are not exercised by any claim). -/
def escapeChar (c : Char) : String :=
  if c = '"' then "\\\"" else if c = '\\' then "\\\\" else String.singleton c

/-- `JSON.stringify` escaping of a string body. -/
def escapeString (s : String) : String :=
  String.join (s.data.map escapeChar)

mutual

/-- Model of `JSON.stringify` (used by the source to build cache keys). -/
def jsonStringify : JValue → String
  | .null => "null"
  | .bool b => cond b "true" "false"
  | .num n => toString n
  | .str s => "\"" ++ escapeString s ++ "\""
  | .arr vs => "[" ++ stringifyArr vs ++ "]"
  | .obj fs => "\x7b" ++ stringifyObj fs ++ "\x7d"

/-- Comma-joined serialization of array elements. -/
def stringifyArr : List JValue → String
  | [] => ""
  | [v] => jsonStringify v
  | v :: rest => jsonStringify v ++ "," ++ stringifyArr rest

/-- Comma-joined serialization of object fields. -/
def stringifyObj : List (String × JValue) → String
  | [] => ""
  | [(k, v)] => "\"" ++ escapeString k ++ "\":" ++ jsonStringify v
  | (k, v) :: rest =>
      "\"" ++ escapeString k ++ "\":" ++ jsonStringify v ++ "," ++ stringifyObj rest

end

/-- `ToolResult` from `src/types.ts`: `result` is `null` on failure, `error`
and `metadata` are optional fields (omitted by `JSON.stringify` when
`undefined`). -/
structure ToolResult where
  success : Bool
  result : JValue
  error : Option String
  metadata : Option JObj
deriving Repr

/-- The JSON value `JSON.stringify` serializes for a `ToolResult`
(undefined optional fields are omitted). -/
def encodeResult (r : ToolResult) : JValue :=
  .obj ([("success", .bool r.success), ("result", r.result)]
    ++ (match r.error with | some e => [("error", .str e)] | none => [])
    ++ (match r.metadata with | some m => [("metadata", .obj m)] | none => []))

/-- The JSON value serialized for a `ToolResult[]`. -/
def encodeResults (rs : List ToolResult) : JValue :=
  .arr (rs.map encodeResult)

/-- `JSON.parse` of a cached step payload followed by the implicit cast to
`ToolResult`; a parse exception or a payload of the wrong shape yields
`none`, which the source treats as a cache miss. -/
def decodeResult : JValue → Option ToolResult
  | .obj fs =>
    match plookup fs "success" with
    | some (.bool b) =>
      let res := (plookup fs "result").getD .null
      match plookup fs "error" with
      | none =>
        match plookup fs "metadata" with
        | none => some ⟨b, res, none, none⟩
        | some (.obj m) => some ⟨b, res, none, some m⟩
        | some _ => none
      | some (.str e) =>
        match plookup fs "metadata" with
        | none => some ⟨b, res, some e, none⟩
        | some (.obj m) => some ⟨b, res, some e, some m⟩
        | some _ => none
      | some _ => none
    | _ => none
  | _ => none

/-- `JSON.parse` of a cached whole-chain payload followed by the implicit
cast to `ToolResult[]`. -/
def decodeResults : JValue → Option (List ToolResult)
  | .arr vs => vs.mapM decodeResult
  | _ => none

theorem decodeResult_encodeResult (r : ToolResult) :
    decodeResult (encodeResult r) = some r := by
  cases r with
  | mk success result error metadata =>
    cases error <;> cases metadata <;>
      simp [encodeResult, decodeResult, plookup]

theorem decode_encode_loop (rs : List ToolResult) (acc : List ToolResult) :
    List.mapM.loop decodeResult (rs.map encodeResult) acc
      = some (acc.reverse ++ rs) := by
  induction rs generalizing acc with
  | nil => simp [List.mapM.loop]
  | cons r rest ih =>
    simp [List.mapM.loop, decodeResult_encodeResult, ih]

theorem decodeResults_encodeResults (rs : List ToolResult) :
    decodeResults (encodeResults rs) = some rs := by
  show (rs.map encodeResult).mapM decodeResult = some rs
  simpa [List.mapM] using decode_encode_loop rs []

/-- `CacheEntry` from `src/types.ts`; the serialized `result` string is
modelled by its JSON value, `timestamp` is in milliseconds, `ttl` in
seconds. -/
structure CacheEntry where
  result : JValue
  timestamp : Int
  ttl : Int
  metadata : Option JObj
deriving Repr

/-- The `Cache`'s backing `Map<string, CacheEntry>`, as an association
list with first-match lookup. -/
abbrev Cache := List (String × CacheEntry)

namespace Cache

/-- `Map.get`. -/
def find : Cache → String → Option CacheEntry
  | [], _ => none
  | (k, e) :: rest, key => if k = key then some e else find rest key

/-- `Map.delete`. -/
def erase : Cache → String → Cache
  | [], _ => []
  | (k, e) :: rest, key =>
      if k = key then erase rest key else (k, e) :: erase rest key

/-- `Map.set` (insert or overwrite). -/
def insert (c : Cache) (key : String) (e : CacheEntry) : Cache :=
  (key, e) :: erase c key

/-- `Cache.get`: returns the payload when present and not expired
(`now - timestamp > ttl * 1000` means expired) and, as a side effect,
deletes an expired entry; the updated store is returned explicitly. -/
def get (c : Cache) (key : String) (now : Int) : Option JValue × Cache :=
  match find c key with
  | none => (none, c)
  | some e =>
      if now - e.timestamp > e.ttl * 1000 then (none, erase c key)
      else (some e.result, c)

/-- `Cache.set`: inserts or overwrites, stamping the entry with `now`. -/
def set (c : Cache) (key : String) (result : JValue) (ttl : Int) (now : Int)
    (metadata : Option JObj := none) : Cache :=
  insert c key ⟨result, now, ttl, metadata⟩

/-- `Cache.getMetadata`: reads the side-channel metadata with no expiry
check and no deletion (its type shows it does not touch the store). -/
def getMetadata (c : Cache) (key : String) : Option JObj :=
  (find c key).bind (·.metadata)

/-- `Cache.has`: delegates to `get`, so it inherits its lazy eviction. -/
def has (c : Cache) (key : String) (now : Int) : Bool × Cache :=
  let (r, c') := get c key now
  (r.isSome, c')

end Cache

/-- `ToolChainStep` from `src/types.ts`. -/
structure ToolChainStep where
  toolName : String
  params : JObj
  metadata : Option JObj
deriving Repr

/-- `ToolChainContext` from `src/types.ts`. -/
structure ToolChainContext where
  previousResults : List ToolResult
  metadata : JObj
deriving Repr

/-- `ToolChain` from `src/types.ts`. -/
structure ToolChain where
  steps : List ToolChainStep
  context : ToolChainContext
deriving Repr

/-- `SchemaProperty` from `src/tool-chain.ts`. -/
structure SchemaProperty where
  type : String
  description : Option String
deriving Repr

/-- `ValidationSchema` from `src/tool-chain.ts`. -/
structure ValidationSchema where
  properties : List (String × SchemaProperty)
  required : Option (List String)
deriving Repr

/-- `ChainableToolConfig` from `src/types.ts` (the undefined-able
`requiresPrevious` is modelled as `Bool`, `undefined` being falsy). -/
structure ChainableToolConfig where
  name : String
  description : String
  inputSchema : ValidationSchema
  chainable : Bool
  requiresPrevious : Bool
deriving Repr

/-- JS `.join('|')`. -/
def joinPieces : List String → String
  | [] => ""
  | [p] => p
  | p :: rest => p ++ "|" ++ joinPieces rest

/-- The step rendering used both for step cache keys and for chain-key
pieces: `toolName + ":" + JSON.stringify(params)`. -/
def stepCacheKey (st : ToolChainStep) : String :=
  st.toolName ++ ":" ++ jsonStringify (.obj st.params)

/-- `Cache.generateChainKey`: step renderings joined with `'|'`. -/
def Cache.generateChainKey (steps : List ToolChainStep) : String :=
  joinPieces (steps.map stepCacheKey)

/-- `validateParams`'s loop over the schema's declared properties, in
declaration order (`required` here is `schema.required ?? []`). -/
def checkProps (params : JObj) (required : List String) :
    List (String × SchemaProperty) → Except String Unit
  | [] => .ok ()
  | (key, sp) :: rest =>
    if required.contains key && (plookup params key).isNone then
      .error ("Missing required parameter: " ++ key)
    else
      match plookup params key with
      | some v =>
        if sp.type ≠ "" ∧ jtypeof v ≠ sp.type then
          .error ("Invalid type for parameter " ++ key ++ ": expected "
            ++ sp.type ++ ", got " ++ jtypeof v)
        else checkProps params required rest
      | none => checkProps params required rest

/-- `validateParams` from `src/tool-chain.ts`: throwing is modelled by
`Except.error`.  Note the source guards the type check with the truthiness
of `value.type`, so an empty declared type tag skips the check. -/
def validateParams (params : JObj) (schema : ValidationSchema) :
    Except String Unit :=
  checkProps params (schema.required.getD []) schema.properties

/-- The executor's mutable collaborators: the registry (`Map` keyed by
tool name, first-match association list) and the injected tool-invocation
collaborator.  Modelled from the spec: `executeTool` in `src/tool-chain.ts`
is a stub that unconditionally throws, while the spec (sections 2 and 6)
treats tool invocation as an injected collaborator
`invoke(contract, params, context) -> value` that may fail opaquely; the
field `execTool` is that collaborator. -/
structure ToolChainManager where
  tools : List (String × ChainableToolConfig)
  execTool : ChainableToolConfig → JObj → ToolChainContext → Except String JValue

/-- The stub body of `executeTool` as it literally appears in the source. -/
def stubExecTool : ChainableToolConfig → JObj → ToolChainContext → Except String JValue :=
  fun _ _ _ => .error "Tool execution not implemented"

/-- Registry lookup (`this.tools.get`). -/
def lookupTool : List (String × ChainableToolConfig) → String → Option ChainableToolConfig
  | [], _ => none
  | (k, t) :: rest, name => if k = name then some t else lookupTool rest name

/-- `registerTool`: `Map.set(config.name, config)` (prepending overwrites
under first-match lookup). -/
def ToolChainManager.registerTool (m : ToolChainManager)
    (config : ChainableToolConfig) : ToolChainManager :=
  { m with tools := (config.name, config) :: m.tools }

/-- The executor's state: the cache plus an instrumentation trace of the
tool names whose steps reached the invocation collaborator, in order. -/
structure ExecState where
  cache : Cache
  calls : List String
deriving Repr

/-- A fresh manager state (empty cache, no invocations yet). -/
def ExecState.initial : ExecState := ⟨[], []⟩

/-- The collaborator invocation inside `executeStep`'s inner `try`: record
the invocation in the trace, wrap a collaborator success into
`{success:true, result, metadata: step.metadata}` (stored in the step
cache, TTL 3600 s), and catch a collaborator failure as
`{success:false, result:null, error, metadata: step.metadata}`.  It never
throws, mirroring the source's `try/catch`. -/
def invokeStep (m : ToolChainManager) (tool : ChainableToolConfig)
    (step : ToolChainStep) (context : ToolChainContext) (s : ExecState)
    (now : Int) : ToolResult × ExecState :=
  let st2 : ExecState := ⟨s.cache, s.calls ++ [step.toolName]⟩
  match m.execTool tool step.params context with
  | .ok v =>
    let r : ToolResult := ⟨true, v, none, step.metadata⟩
    (r, ⟨Cache.set st2.cache (stepCacheKey step) (encodeResult r) 3600 now,
         st2.calls⟩)
  | .error msg => (⟨false, .null, some msg, step.metadata⟩, st2)

/-- `executeStep` from `src/tool-chain.ts`.  `Except.error` models the
exceptions thrown before the inner `try` (unknown tool, missing
prerequisite, validation failure); the step-cache lookup (a deserialized
hit is returned as-is, anything else falls through to invocation) and the
inner `try/catch` (`invokeStep`) never throw. -/
def executeStep (m : ToolChainManager) (step : ToolChainStep)
    (context : ToolChainContext) (s : ExecState) (now : Int) :
    Except String (ToolResult × ExecState) :=
  match lookupTool m.tools step.toolName with
  | none => .error ("Tool not found: " ++ step.toolName)
  | some tool =>
    if tool.requiresPrevious && context.previousResults.isEmpty then
      .error ("Tool " ++ step.toolName ++ " requires previous results")
    else
      match validateParams step.params tool.inputSchema with
      | .error msg => .error msg
      | .ok () =>
        match (Cache.get s.cache (stepCacheKey step) now).1 with
        | some payload =>
          match decodeResult payload with
          | some r =>
            .ok (r, ⟨(Cache.get s.cache (stepCacheKey step) now).2, s.calls⟩)
          | none =>
            .ok (invokeStep m tool step context
              ⟨(Cache.get s.cache (stepCacheKey step) now).2, s.calls⟩ now)
        | none =>
          .ok (invokeStep m tool step context
            ⟨(Cache.get s.cache (stepCacheKey step) now).2, s.calls⟩ now)

/-- The context update after a successful step: append to
`previousResults` and, when the step has metadata, spread-merge it over the
accumulated metadata (later keys overwrite earlier ones). -/
def updateContext (context : ToolChainContext) (r : ToolResult) : ToolChainContext :=
  ⟨context.previousResults ++ [r],
   match r.metadata with
   | some md => context.metadata.filter (fun kv => (plookup md kv.1).isNone) ++ md
   | none => context.metadata⟩

/-- The step loop of `executeChain`, with the per-step `try/catch` written
as the match on `executeStep`'s `Except` (the handler appends a failed
result without the step's metadata and stops; a failed result also stops
the loop). -/
def chainLoop (m : ToolChainManager) (now : Int) :
    List ToolChainStep → ToolChainContext → List ToolResult → ExecState →
    List ToolResult × ExecState
  | [], _, acc, s => (acc, s)
  | step :: rest, context, acc, s =>
    match executeStep m step context s now with
    | .error msg => (acc ++ [⟨false, .null, some msg, none⟩], s)
    | .ok (r, s') =>
      if r.success then
        chainLoop m now rest (updateContext context r) (acc ++ [r]) s'
      else (acc ++ [r], s')

/-- The post-loop chain-level store: serialize and cache the full list
(TTL 3600 s) exactly when every collected result succeeded. -/
def storeChainResults (chainKey : String) (now : Int)
    (p : List ToolResult × ExecState) : List ToolResult × ExecState :=
  if p.1.all (·.success) then
    (p.1, ⟨Cache.set p.2.cache chainKey (encodeResults p.1) 3600 now, p.2.calls⟩)
  else p

/-- The cache-miss path of `executeChain`: run the loop from a fresh
context, then store on all-success. -/
def runChain (m : ToolChainManager) (steps : List ToolChainStep)
    (chainKey : String) (s : ExecState) (now : Int) :
    List ToolResult × ExecState :=
  storeChainResults chainKey now (chainLoop m now steps ⟨[], []⟩ [] s)

/-- `executeChain` from `src/tool-chain.ts` as a total function: consult
the whole-chain cache (an undeserializable hit degrades to a miss), else
run the steps. -/
def executeChain (m : ToolChainManager) (chain : ToolChain) (s : ExecState)
    (now : Int) : List ToolResult × ExecState :=
  match (Cache.get s.cache (Cache.generateChainKey chain.steps) now).1 with
  | some payload =>
    match decodeResults payload with
    | some parsed =>
      (parsed,
       ⟨(Cache.get s.cache (Cache.generateChainKey chain.steps) now).2, s.calls⟩)
    | none =>
      runChain m chain.steps (Cache.generateChainKey chain.steps)
        ⟨(Cache.get s.cache (Cache.generateChainKey chain.steps) now).2, s.calls⟩ now
  | none =>
    runChain m chain.steps (Cache.generateChainKey chain.steps)
      ⟨(Cache.get s.cache (Cache.generateChainKey chain.steps) now).2, s.calls⟩ now

/-- The step loop written in the exception monad, with the source's
`try/catch` as a literal `Except.tryCatch`: steps really throw here, and
only the per-step handler stands between a throw and the caller. -/
def chainLoopE (m : ToolChainManager) (now : Int) :
    List ToolChainStep → ToolChainContext → List ToolResult → ExecState →
    Except String (List ToolResult × ExecState)
  | [], _, acc, s => .ok (acc, s)
  | step :: rest, context, acc, s => do
    let outcome ← Except.tryCatch
      (do
        let rs' ← executeStep m step context s now
        pure (Sum.inl rs'))
      (fun msg => pure (Sum.inr msg))
    match outcome with
    | .inr msg => .ok (acc ++ [⟨false, .null, some msg, none⟩], s)
    | .inl (r, s') =>
      if r.success then
        chainLoopE m now rest (updateContext context r) (acc ++ [r]) s'
      else .ok (acc ++ [r], s')

/-- `executeChain` in the exception monad: the computation whose
non-`error`-ness expresses that no exception escapes. -/
def executeChainE (m : ToolChainManager) (chain : ToolChain) (s : ExecState)
    (now : Int) : Except String (List ToolResult × ExecState) :=
  match (Cache.get s.cache (Cache.generateChainKey chain.steps) now).1 with
  | some payload =>
    match decodeResults payload with
    | some parsed =>
      .ok (parsed,
        ⟨(Cache.get s.cache (Cache.generateChainKey chain.steps) now).2, s.calls⟩)
    | none =>
      (chainLoopE m now chain.steps ⟨[], []⟩ []
          ⟨(Cache.get s.cache (Cache.generateChainKey chain.steps) now).2, s.calls⟩).map
        (storeChainResults (Cache.generateChainKey chain.steps) now)
  | none =>
    (chainLoopE m now chain.steps ⟨[], []⟩ []
        ⟨(Cache.get s.cache (Cache.generateChainKey chain.steps) now).2, s.calls⟩).map
      (storeChainResults (Cache.generateChainKey chain.steps) now)

theorem chainLoopE_ok (m : ToolChainManager) (now : Int)
    (steps : List ToolChainStep) (context : ToolChainContext)
    (acc : List ToolResult) (s : ExecState) :
    chainLoopE m now steps context acc s = .ok (chainLoop m now steps context acc s) := by
  induction steps generalizing context acc s with
  | nil => rfl
  | cons step rest ih =>
    simp only [chainLoopE, chainLoop]
    cases h : executeStep m step context s now with
    | error msg => simp [Except.tryCatch, h, Bind.bind, Except.bind, Pure.pure, Except.pure]
    | ok rs' =>
      obtain ⟨r, s'⟩ := rs'
      by_cases hr : r.success <;>
        simp [Except.tryCatch, h, Bind.bind, Except.bind, Pure.pure, Except.pure, hr, ih]

theorem find_erase_self (c : Cache) (key : String) :
    Cache.find (Cache.erase c key) key = none := by
  induction c with
  | nil => rfl
  | cons kv rest ih =>
    obtain ⟨k, e⟩ := kv
    by_cases h : k = key <;> simp [Cache.erase, Cache.find, h, ih]

theorem find_erase_of_ne (c : Cache) (key key' : String) (h : key' ≠ key) :
    Cache.find (Cache.erase c key') key = Cache.find c key := by
  induction c with
  | nil => rfl
  | cons kv rest ih =>
    obtain ⟨k, e⟩ := kv
    by_cases hk : k = key'
    · subst hk
      simp [Cache.erase, Cache.find, h, ih]
    · by_cases hk2 : k = key
      · subst hk2
        simp [Cache.erase, Cache.find, hk]
      · simp [Cache.erase, Cache.find, hk, hk2, ih]

theorem find_insert_self (c : Cache) (key : String) (e : CacheEntry) :
    Cache.find (Cache.insert c key e) key = some e := by
  simp [Cache.insert, Cache.find]

theorem find_insert_of_ne (c : Cache) (key key' : String) (e : CacheEntry)
    (h : key' ≠ key) :
    Cache.find (Cache.insert c key' e) key = Cache.find c key := by
  simp [Cache.insert, Cache.find, h, find_erase_of_ne c key key' h]

/-- C1: for every chain, `executeChain` never raises: running the chain in
the exception monad (where step failures really throw) always returns
`Except.ok`, with the same results and state as the total function —
every step failure is caught at the step boundary and communicated only
through the returned result list. -/
theorem executeChain_never_raises (m : ToolChainManager) (chain : ToolChain)
    (s : ExecState) (now : Int) :
    executeChainE m chain s now = Except.ok (executeChain m chain s now) := by
  simp only [executeChainE, executeChain, runChain]
  cases (Cache.get s.cache (Cache.generateChainKey chain.steps) now).1 with
  | none => simp [chainLoopE_ok, Except.map]
  | some payload =>
    cases hd : decodeResults payload <;> simp [hd, chainLoopE_ok, Except.map]

/-- C8: `Cache.get` returns the stored payload exactly when an entry for
the key exists and is not expired (`now - timestamp > ttl` seconds means
expired); on an expired entry it returns `none` and deletes the entry, so
a subsequent `has` on the key (at any time) is `false`. -/
theorem cache_get_ttl_spec (c : Cache) (key : String) (now : Int) :
    (∀ p, (Cache.get c key now).1 = some p ↔
      ∃ e, Cache.find c key = some e ∧ ¬(now - e.timestamp > e.ttl * 1000) ∧
        p = e.result) ∧
    (∀ e, Cache.find c key = some e → now - e.timestamp > e.ttl * 1000 →
      Cache.get c key now = (none, Cache.erase c key) ∧
      ∀ now', (Cache.has (Cache.erase c key) key now').1 = false) := by
  constructor
  · intro p
    cases hf : Cache.find c key with
    | none => simp [Cache.get, hf]
    | some e =>
      by_cases hexp : now - e.timestamp > e.ttl * 1000
      · simp only [Cache.get, hf, if_pos hexp]
        constructor
        · intro h
          exact absurd h (by simp)
        · rintro ⟨e', he', hne, rfl⟩
          injection he' with he'
          subst he'
          exact absurd hexp hne
      · simp only [Cache.get, hf, if_neg hexp]
        constructor
        · intro h
          injection h with h
          exact ⟨e, rfl, hexp, h.symm⟩
        · rintro ⟨e', he', hne, rfl⟩
          injection he' with he'
          subst he'
          rfl
  · intro e hf hexp
    refine ⟨by simp [Cache.get, hf, hexp], fun now' => ?_⟩
    simp [Cache.has, Cache.get, find_erase_self]

/-- Witness for C8 at a concrete expired entry. -/
theorem cache_get_ttl_spec_witness :
    Cache.get [("k", ⟨JValue.str "v", 0, 0, none⟩)] "k" 1 = (none, []) ∧
    (Cache.has ([] : Cache) "k" 5).1 = false := by
  have h := (cache_get_ttl_spec [("k", ⟨JValue.str "v", 0, 0, none⟩)] "k" 1).2
    (⟨JValue.str "v", 0, 0, none⟩ : CacheEntry) (by simp [Cache.find]) (by decide)
  exact ⟨h.1, h.2 5⟩

/-- C9: `Cache.getMetadata` performs no expiry check and no deletion (its
type is read-only on the store): for an entry whose TTL has elapsed but
that has not been evicted, it still returns the entry's metadata even
though `get` returns `none` on the same key. -/
theorem cache_getMetadata_ignores_ttl (c : Cache) (key : String)
    (e : CacheEntry) (now : Int) (hf : Cache.find c key = some e)
    (hexp : now - e.timestamp > e.ttl * 1000) :
    Cache.getMetadata c key = e.metadata ∧ (Cache.get c key now).1 = none := by
  refine ⟨by simp [Cache.getMetadata, hf], ?_⟩
  simp [Cache.get, hf, hexp]

/-- Witness for C9: an expired entry with metadata. -/
theorem cache_getMetadata_ignores_ttl_witness :
    Cache.getMetadata [("k", ⟨JValue.str "v", 0, 0, some [("m", JValue.num 1)]⟩)] "k"
      = some [("m", JValue.num 1)] ∧
    (Cache.get [("k", ⟨JValue.str "v", 0, 0, some [("m", JValue.num 1)]⟩)] "k" 1).1
      = none :=
  cache_getMetadata_ignores_ttl
    [("k", ⟨JValue.str "v", 0, 0, some [("m", JValue.num 1)]⟩)] "k"
    (⟨JValue.str "v", 0, 0, some [("m", JValue.num 1)]⟩ : CacheEntry) 1
    (by simp [Cache.find]) (by decide)

/-- C10: on a chain with no steps, when the empty chain key is absent from
the cache, `executeChain` returns the empty result list, performs no
invocation (the call trace is unchanged), and — the all-success check being
vacuously true — stores the serialized empty list under the key generated
from the empty step sequence, which is the empty string. -/
theorem executeChain_empty_chain (m : ToolChainManager) (s : ExecState)
    (ctx : ToolChainContext) (now : Int)
    (habs : Cache.find s.cache "" = none) :
    Cache.generateChainKey [] = "" ∧
    executeChain m ⟨[], ctx⟩ s now =
      ([], ⟨Cache.set s.cache "" (encodeResults []) 3600 now, s.calls⟩) := by
  refine ⟨rfl, ?_⟩
  simp [executeChain, Cache.generateChainKey, joinPieces, Cache.get, habs,
    runChain, chainLoop, storeChainResults]

/-- Witness for C10: the empty chain on a fresh manager state. -/
theorem executeChain_empty_chain_witness :
    executeChain ⟨[], stubExecTool⟩ ⟨[], ⟨[], []⟩⟩ ExecState.initial 0 =
      ([], ⟨[("", ⟨JValue.arr [], 0, 3600, none⟩)], []⟩) :=
  (executeChain_empty_chain ⟨[], stubExecTool⟩ ExecState.initial ⟨[], []⟩ 0 rfl).2

theorem checkProps_ok_iff (params : JObj) (required : List String) :
    ∀ props : List (String × SchemaProperty),
      checkProps params required props = .ok () ↔
        ∀ kp ∈ props,
          (required.contains kp.1 = true → (plookup params kp.1).isSome = true) ∧
          (∀ v, plookup params kp.1 = some v →
            kp.2.type = "" ∨ jtypeof v = kp.2.type) := by
  intro props
  induction props with
  | nil => simp [checkProps]
  | cons kp rest ih =>
    obtain ⟨key, sp⟩ := kp
    by_cases hreq : required.contains key && (plookup params key).isNone
    · simp only [checkProps, if_pos hreq]
      constructor
      · intro h
        cases h
      · intro h
        have h1 := (h (key, sp) (by simp)).1
        rw [Bool.and_eq_true] at hreq
        have := h1 hreq.1
        rw [Option.isNone_iff_eq_none] at hreq
        simp [hreq.2] at this
    · simp only [checkProps, if_neg hreq]
      cases hp : plookup params key with
      | none =>
        rw [ih]
        constructor
        · intro h
          intro kp' hkp'
          rcases List.mem_cons.mp hkp' with heq | hmem
          · subst heq
            refine ⟨fun hcont => ?_, fun v hv => ?_⟩
            · exact absurd (by rw [Bool.and_eq_true]
                               exact ⟨hcont, by simp [hp]⟩) hreq
            · rw [hp] at hv
              cases hv
          · exact h kp' hmem
        · intro h
          exact fun kp' hkp' => h kp' (List.mem_cons_of_mem _ hkp')
      | some v =>
        by_cases hty : sp.type ≠ "" ∧ jtypeof v ≠ sp.type
        · simp only [if_pos hty]
          constructor
          · intro h
            cases h
          · intro h
            have h2 := (h (key, sp) (by simp)).2 v hp
            rcases h2 with h2 | h2
            · exact absurd h2 hty.1
            · exact absurd h2 hty.2
        · simp only [if_neg hty]
          rw [ih]
          constructor
          · intro h kp' hkp'
            rcases List.mem_cons.mp hkp' with heq | hmem
            · subst heq
              refine ⟨fun _ => by simp [hp], fun v' hv' => ?_⟩
              rw [hp] at hv'
              injection hv' with hv'
              subst hv'
              rcases not_and_or.mp hty with h1 | h1
              · exact Or.inl (not_not.mp h1)
              · exact Or.inr (not_not.mp h1)
            · exact h kp' hmem
          · intro h
            exact fun kp' hkp' => h kp' (List.mem_cons_of_mem _ hkp')

/-- C7 (amended): `validateParams` succeeds iff, for every property
declared in the schema, a property listed as `required` is present in the
params, and a present property whose declared type tag is *non-empty* has
a runtime type tag equal to it.  (The source guards the type comparison
with the truthiness of the declared tag, so an empty declared tag skips
the check — the unconditional claim fails, see the counterexample.)
Undeclared properties of the params are never consulted. -/
theorem validateParams_ok_iff (params : JObj) (schema : ValidationSchema) :
    validateParams params schema = .ok () ↔
      ∀ kp ∈ schema.properties,
        ((schema.required.getD []).contains kp.1 = true →
          (plookup params kp.1).isSome = true) ∧
        (∀ v, plookup params kp.1 = some v →
          kp.2.type = "" ∨ jtypeof v = kp.2.type) :=
  checkProps_ok_iff params (schema.required.getD []) schema.properties

/-- Counterexample to C7 as stated: with a declared (falsy) empty type
tag, a present parameter whose runtime tag differs from the declared tag
passes validation, although the claim requires failure. -/
theorem validateParams_empty_tag_counterexample :
    validateParams [("a", JValue.str "x")] ⟨[("a", ⟨"", none⟩)], none⟩
      = Except.ok () ∧
    jtypeof (JValue.str "x") ≠ "" := ⟨rfl, by decide⟩

/-- Witness for the amended C7: a required, correctly-typed parameter
passes, exercising both conjuncts of the iff. -/
theorem validateParams_ok_iff_witness :
    validateParams [("msg", JValue.str "hi")]
      ⟨[("msg", ⟨"string", none⟩)], some ["msg"]⟩ = Except.ok () := by
  rw [validateParams_ok_iff]
  intro kp hkp
  rcases List.mem_singleton.mp hkp with rfl
  refine ⟨fun _ => by simp [plookup], fun v hv => ?_⟩
  simp only [plookup, if_pos rfl] at hv
  injection hv with hv
  subst hv
  exact Or.inr rfl

theorem chars_split (sep : Char) :
    ∀ a b x y : List Char, sep ∉ a → sep ∉ b →
      a ++ sep :: x = b ++ sep :: y → a = b ∧ x = y := by
  intro a
  induction a with
  | nil =>
    intro b x y _ hb h
    cases b with
    | nil =>
      simp at h
      exact ⟨rfl, h⟩
    | cons c bs =>
      simp at h
      exact absurd (h.1 ▸ List.mem_cons_self c bs) hb
  | cons c as ih =>
    intro b x y ha hb h
    cases b with
    | nil =>
      simp at h
      exact absurd (h.1 ▸ List.mem_cons_self c as) ha
    | cons d bs =>
      simp at h
      obtain ⟨hcd, hrest⟩ := h
      have ha' : sep ∉ as := fun hm => ha (List.mem_cons_of_mem c hm)
      have hb' : sep ∉ bs := fun hm => hb (List.mem_cons_of_mem d hm)
      obtain ⟨h1, h2⟩ := ih bs x y ha' hb' hrest
      exact ⟨by rw [hcd, h1], h2⟩

theorem string_split (sep : Char) (sepStr : String) (hs : sepStr.data = [sep])
    (a b x y : String) (ha : sep ∉ a.data) (hb : sep ∉ b.data)
    (h : a ++ sepStr ++ x = b ++ sepStr ++ y) : a = b ∧ x = y := by
  have hd := congrArg String.data h
  rw [String.data_append, String.data_append, String.data_append,
    String.data_append, hs] at hd
  obtain ⟨h1, h2⟩ := chars_split sep a.data b.data x.data y.data ha hb
    (by simpa [List.append_assoc] using hd)
  exact ⟨String.ext h1, String.ext h2⟩

theorem joinPieces_data_cons (p q : String) (rest : List String) :
    (joinPieces (p :: q :: rest)).data
      = p.data ++ '|' :: (joinPieces (q :: rest)).data := by
  show (p ++ "|" ++ joinPieces (q :: rest)).data = _
  rw [String.data_append, String.data_append]
  simp

theorem ne_empty_of_mem_data {c : Char} {s : String} (h : c ∈ s.data) :
    s ≠ "" := by
  intro he
  rw [he] at h
  cases h

theorem joinPieces_inj :
    ∀ l1 l2 : List String,
      (∀ p ∈ l1, '|' ∉ p.data ∧ p ≠ "") →
      (∀ p ∈ l2, '|' ∉ p.data ∧ p ≠ "") →
      joinPieces l1 = joinPieces l2 → l1 = l2 := by
  intro l1
  induction l1 with
  | nil =>
    intro l2 _ h2 h
    cases l2 with
    | nil => rfl
    | cons q t2 =>
      cases t2 with
      | nil => exact absurd h.symm (h2 q (by simp)).2
      | cons r t2' =>
        have hd := congrArg String.data h
        rw [joinPieces_data_cons] at hd
        simp [joinPieces] at hd
  | cons p t1 ih =>
    intro l2 h1 h2 h
    cases l2 with
    | nil =>
      cases t1 with
      | nil => exact absurd h (h1 p (by simp)).2
      | cons r t1' =>
        have hd := congrArg String.data h
        rw [joinPieces_data_cons] at hd
        simp [joinPieces] at hd
    | cons q t2 =>
      cases t1 with
      | nil =>
        cases t2 with
        | nil =>
          simp [joinPieces] at h
          rw [h]
        | cons r t2' =>
          have hd := congrArg String.data h
          rw [joinPieces_data_cons] at hd
          simp [joinPieces] at hd
          have : '|' ∈ (joinPieces [p]).data := by
            simp [joinPieces, hd]
          exact absurd (by simpa [joinPieces] using this) (h1 p (by simp)).1
      | cons r t1' =>
        cases t2 with
        | nil =>
          have hd := congrArg String.data h
          rw [joinPieces_data_cons] at hd
          have hq : ('|' : Char) ∈ q.data := by
            have hmem : ('|' : Char) ∈ (joinPieces [q]).data := by
              rw [← hd]
              simp
            simpa [joinPieces] using hmem
          exact absurd hq (h2 q (by simp)).1
        | cons u t2' =>
          have hsplit := string_split '|' "|" rfl p q
            (joinPieces (r :: t1')) (joinPieces (u :: t2'))
            (h1 p (by simp)).1 (h2 q (by simp)).1 h
          have ht := ih (u :: t2')
            (fun x hx => h1 x (List.mem_cons_of_mem p hx))
            (fun x hx => h2 x (List.mem_cons_of_mem q hx))
            hsplit.2
          rw [hsplit.1, ht]

theorem stepCacheKey_data (st : ToolChainStep) :
    (stepCacheKey st).data
      = st.toolName.data ++ ':' :: (jsonStringify (.obj st.params)).data := by
  show (st.toolName ++ ":" ++ jsonStringify (.obj st.params)).data = _
  rw [String.data_append, String.data_append]
  simp

/-- The `(toolName, serialized params)` pair of a step, the data the spec
says the chain key is a function of. -/
def stepPair (st : ToolChainStep) : String × String :=
  (st.toolName, jsonStringify (.obj st.params))

theorem stepCacheKey_of_stepPair (st : ToolChainStep) :
    stepCacheKey st = (stepPair st).1 ++ ":" ++ (stepPair st).2 := rfl

theorem stepCacheKey_inj (st1 st2 : ToolChainStep)
    (h1 : ':' ∉ st1.toolName.data) (h2 : ':' ∉ st2.toolName.data)
    (h : stepCacheKey st1 = stepCacheKey st2) : stepPair st1 = stepPair st2 := by
  have := string_split ':' ":" rfl st1.toolName st2.toolName
    (jsonStringify (.obj st1.params)) (jsonStringify (.obj st2.params)) h1 h2 h
  simp [stepPair, this.1, this.2]

theorem stepCacheKey_pipe_free (st : ToolChainStep)
    (hn : '|' ∉ st.toolName.data)
    (hp : '|' ∉ (jsonStringify (.obj st.params)).data) :
    '|' ∉ (stepCacheKey st).data ∧ stepCacheKey st ≠ "" := by
  constructor
  · rw [stepCacheKey_data]
    intro hmem
    rcases List.mem_append.mp hmem with hmem | hmem
    · exact hn hmem
    · rcases List.mem_cons.mp hmem with hmem | hmem
      · cases hmem
      · exact hp hmem
  · exact ne_empty_of_mem_data (c := ':') (by rw [stepCacheKey_data]; simp)

theorem map_stepPair_of_map_key :
    ∀ l1 l2 : List ToolChainStep,
      (∀ st ∈ l1 ++ l2, ':' ∉ st.toolName.data) →
      l1.map stepCacheKey = l2.map stepCacheKey →
      l1.map stepPair = l2.map stepPair := by
  intro l1
  induction l1 with
  | nil =>
    intro l2 _ h
    cases l2 with
    | nil => rfl
    | cons q t2 => cases h
  | cons p t1 ih =>
    intro l2 hc h
    cases l2 with
    | nil => cases h
    | cons q t2 =>
      simp only [List.map_cons, List.cons.injEq] at h ⊢
      refine ⟨stepCacheKey_inj p q (hc p (by simp)) (hc q (by simp)) h.1, ?_⟩
      exact ih t2 (fun st hst => hc st (by
        rcases List.mem_append.mp hst with hst | hst
        · exact List.mem_append.mpr (Or.inl (List.mem_cons_of_mem p hst))
        · exact List.mem_append.mpr (Or.inr (List.mem_cons_of_mem q hst)))) h.2

/-- C6 (amended): `generateChainKey` is a deterministic pure function of
the ordered `(toolName, serialized params)` pairs — equal pair sequences
give equal keys unconditionally; and, provided no tool name contains the
separator characters `':'` or `'|'` and no serialized params string
contains `'|'`, distinct pair sequences (in particular the same steps in a
different order) give distinct keys.  Without that proviso the
order-sensitivity fails, see the counterexample. -/
theorem generateChainKey_order_spec (l1 l2 : List ToolChainStep) :
    (l1.map stepPair = l2.map stepPair →
      Cache.generateChainKey l1 = Cache.generateChainKey l2) ∧
    ((∀ st ∈ l1 ++ l2, ':' ∉ st.toolName.data ∧ '|' ∉ st.toolName.data ∧
        '|' ∉ (jsonStringify (.obj st.params)).data) →
      l1.map stepPair ≠ l2.map stepPair →
      Cache.generateChainKey l1 ≠ Cache.generateChainKey l2) := by
  constructor
  · intro h
    unfold Cache.generateChainKey
    have : ∀ l : List ToolChainStep,
        l.map stepCacheKey = (l.map stepPair).map (fun pr => pr.1 ++ ":" ++ pr.2) := by
      intro l
      rw [List.map_map]
      rfl
    rw [this l1, this l2, h]
  · intro hsep hne hk
    apply hne
    have hpieces : l1.map stepCacheKey = l2.map stepCacheKey := by
      apply joinPieces_inj
      · intro p hp
        rcases List.mem_map.mp hp with ⟨st, hst, rfl⟩
        have := hsep st (List.mem_append.mpr (Or.inl hst))
        exact stepCacheKey_pipe_free st this.2.1 this.2.2
      · intro p hp
        rcases List.mem_map.mp hp with ⟨st, hst, rfl⟩
        have := hsep st (List.mem_append.mpr (Or.inr hst))
        exact stepCacheKey_pipe_free st this.2.1 this.2.2
      · exact hk
    exact map_stepPair_of_map_key l1 l2 (fun st hst => (hsep st hst).1) hpieces

/-- Counterexample to C6 as stated: two chains whose steps are in a
different order (their head tool names differ) with the same chain key,
because one tool name embeds the `'|'`/`':'`-separated rendering. -/
theorem generateChainKey_reorder_counterexample :
    Cache.generateChainKey
        [⟨"a", [], none⟩, ⟨"a:\x7b\x7d|a", [], none⟩]
      = Cache.generateChainKey
        [⟨"a:\x7b\x7d|a", [], none⟩, ⟨"a", [], none⟩] ∧
    ("a" : String) ≠ "a:\x7b\x7d|a" := by
  constructor
  · rfl
  · decide

/-- Witness for the amended C6: two separator-free single-step chains with
distinct pairs have distinct keys. -/
theorem generateChainKey_order_spec_witness :
    Cache.generateChainKey [⟨"f", [], none⟩]
      ≠ Cache.generateChainKey [⟨"g", [], none⟩] :=
  (generateChainKey_order_spec [⟨"f", [], none⟩] [⟨"g", [], none⟩]).2
    (by decide) (by decide)

/-- A manager with no registered tools and the source's stub collaborator. -/
def emptyManager : ToolChainManager := ⟨[], stubExecTool⟩

/-- A step naming an unregistered tool, carrying metadata. -/
def missingStep : ToolChainStep := ⟨"missing", [], some [("k", JValue.str "v")]⟩

/-- A one-step chain around `missingStep`. -/
def missingChain : ToolChain := ⟨[missingStep], ⟨[], []⟩⟩

/-- A registry with one permissive tool and a collaborator that always
fails. -/
def failManager : ToolChainManager :=
  ⟨[("t", ⟨"t", "d", ⟨[], none⟩, true, false⟩)], fun _ _ _ => .error "boom"⟩

/-- The `failManager` step, carrying metadata. -/
def tStep : ToolChainStep := ⟨"t", [], some [("k", JValue.str "v")]⟩

/-- Counterexample to C5 as stated: a step whose execution throws before
the inner try-block (unregistered tool) yields a failed result whose
`metadata` is `undefined`, not the step's metadata — the chain-loop catch
builds the result without a `metadata` field. -/
theorem failed_result_metadata_counterexample :
    (executeChain emptyManager missingChain ExecState.initial 0).1.map (·.metadata)
      = [none] ∧
    missingChain.steps.map (·.metadata) = [some [("k", JValue.str "v")]] ∧
    (none : Option JObj) ≠ some [("k", JValue.str "v")] := by
  exact ⟨rfl, rfl, fun h => Option.noConfusion h⟩

/-- C5 (amended): a failure raised *inside* the inner try-block (the
invocation collaborator) produces
`{success:false, result:null, error, metadata: step.metadata}`; but a
failure thrown *before* the inner try-block (unknown tool, missing
prerequisite, validation) is caught by the chain loop, whose handler
produces `{success:false, result:null, error}` with no metadata. -/
theorem failed_result_metadata_spec :
    (∀ (m : ToolChainManager) (step : ToolChainStep)
        (context : ToolChainContext) (s : ExecState) (now : Int)
        (tool : ChainableToolConfig) (msg : String),
      lookupTool m.tools step.toolName = some tool →
      (tool.requiresPrevious && context.previousResults.isEmpty) = false →
      validateParams step.params tool.inputSchema = .ok () →
      ((Cache.get s.cache (stepCacheKey step) now).1.bind decodeResult) = none →
      m.execTool tool step.params context = .error msg →
      executeStep m step context s now =
        .ok (⟨false, .null, some msg, step.metadata⟩,
          ⟨(Cache.get s.cache (stepCacheKey step) now).2,
           s.calls ++ [step.toolName]⟩)) ∧
    (∀ (m : ToolChainManager) (now : Int) (step : ToolChainStep)
        (rest : List ToolChainStep) (context : ToolChainContext)
        (acc : List ToolResult) (s : ExecState) (msg : String),
      executeStep m step context s now = .error msg →
      chainLoop m now (step :: rest) context acc s
        = (acc ++ [⟨false, .null, some msg, none⟩], s)) := by
  constructor
  · intro m step context s now tool msg hlook hreq hval hmiss hexec
    unfold executeStep
    rw [hlook]
    simp only [hreq, Bool.false_eq_true, if_false, hval]
    cases hc : (Cache.get s.cache (stepCacheKey step) now).1 with
    | none => simp [invokeStep, hexec]
    | some payload =>
      rw [hc] at hmiss
      have hdec : decodeResult payload = none := hmiss
      simp [invokeStep, hdec, hexec]
  · intro m now step rest context acc s msg h
    unfold chainLoop
    rw [h]

/-- Witness for the amended C5: a collaborator failure carries the step's
metadata, while a missing-tool failure caught at the loop does not. -/
theorem failed_result_metadata_spec_witness :
    executeStep failManager tStep ⟨[], []⟩ ExecState.initial 0 =
      .ok (⟨false, .null, some "boom", some [("k", JValue.str "v")]⟩,
        ⟨[], ["t"]⟩) ∧
    chainLoop emptyManager 0 [missingStep] ⟨[], []⟩ [] ExecState.initial
      = ([⟨false, .null, some "Tool not found: missing", none⟩],
         ExecState.initial) :=
  ⟨failed_result_metadata_spec.1 failManager tStep ⟨[], []⟩ ExecState.initial 0
      (⟨"t", "d", ⟨[], none⟩, true, false⟩ : ChainableToolConfig) "boom"
      rfl rfl rfl rfl rfl,
   failed_result_metadata_spec.2 emptyManager 0 missingStep [] ⟨[], []⟩ []
      ExecState.initial "Tool not found: missing" rfl⟩

theorem storeChainResults_fst (k : String) (now : Int)
    (p : List ToolResult × ExecState) : (storeChainResults k now p).1 = p.1 := by
  unfold storeChainResults
  split <;> rfl

theorem storeChainResults_calls (k : String) (now : Int)
    (p : List ToolResult × ExecState) :
    (storeChainResults k now p).2.calls = p.2.calls := by
  unfold storeChainResults
  split <;> rfl

theorem chainLoop_length (m : ToolChainManager) (now : Int) :
    ∀ (steps : List ToolChainStep) (context : ToolChainContext)
      (acc : List ToolResult) (s : ExecState),
      (chainLoop m now steps context acc s).1.length ≤ acc.length + steps.length := by
  intro steps
  induction steps with
  | nil => intro context acc s; simp [chainLoop]
  | cons step rest ih =>
    intro context acc s
    unfold chainLoop
    cases executeStep m step context s now with
    | error msg =>
      simp only [List.length_append, List.length_cons, List.length_singleton,
        List.length_nil]
      omega
    | ok rs' =>
      obtain ⟨r, s'⟩ := rs'
      cases hr : r.success
      · simp only [hr, Bool.false_eq_true, if_false]
        simp only [List.length_append, List.length_cons, List.length_nil]
        omega
      · simp only [hr, eq_self_iff_true, if_true]
        have h2 := ih (updateContext context r) (acc ++ [r]) s'
        simp only [List.length_append, List.length_cons, List.length_nil] at h2 ⊢
        omega

theorem all_dropLast {p : ToolResult → Bool} {l : List ToolResult}
    (h : l.all p = true) : l.dropLast.all p = true := by
  rw [List.all_eq_true] at h ⊢
  intro x hx
  exact h x ((List.dropLast_sublist l).subset hx)

theorem chainLoop_dropLast_success (m : ToolChainManager) (now : Int) :
    ∀ (steps : List ToolChainStep) (context : ToolChainContext)
      (acc : List ToolResult) (s : ExecState),
      acc.all (·.success) = true →
      (chainLoop m now steps context acc s).1.dropLast.all (·.success) = true := by
  intro steps
  induction steps with
  | nil =>
    intro context acc s hacc
    exact all_dropLast hacc
  | cons step rest ih =>
    intro context acc s hacc
    unfold chainLoop
    cases executeStep m step context s now with
    | error msg => simpa [List.dropLast_concat] using hacc
    | ok rs' =>
      obtain ⟨r, s'⟩ := rs'
      by_cases hr : r.success
      · simp only [hr, if_true]
        exact ih _ _ _ (by simp [List.all_append, hacc, hr])
      · simp only [hr, if_false]
        simpa [List.dropLast_concat] using hacc

theorem invokeStep_calls (m : ToolChainManager) (tool : ChainableToolConfig)
    (step : ToolChainStep) (context : ToolChainContext) (st : ExecState)
    (now : Int) :
    (invokeStep m tool step context st now).2.calls
      = st.calls ++ [step.toolName] := by
  unfold invokeStep
  split <;> rfl

theorem executeStep_ok_cases (m : ToolChainManager) (step : ToolChainStep)
    (context : ToolChainContext) (s : ExecState) (now : Int)
    (r : ToolResult) (s' : ExecState)
    (h : executeStep m step context s now = .ok (r, s')) :
    (s' = ⟨(Cache.get s.cache (stepCacheKey step) now).2, s.calls⟩ ∧
      ((Cache.get s.cache (stepCacheKey step) now).1.bind decodeResult)
        = some r) ∨
    (∃ tool, lookupTool m.tools step.toolName = some tool ∧
      (r, s') = invokeStep m tool step context
        ⟨(Cache.get s.cache (stepCacheKey step) now).2, s.calls⟩ now) := by
  unfold executeStep at h
  split at h
  · cases h
  · split at h
    · cases h
    · split at h
      · cases h
      · split at h
        · split at h
          · injection h with h
            injection h with h1 h2
            refine Or.inl ⟨h2.symm, ?_⟩
            rw [show (Cache.get s.cache (stepCacheKey step) now).1 = _ from
              by assumption]
            simp only [Option.bind]
            rw [show decodeResult _ = _ from by assumption, h1]
          · refine Or.inr ⟨_, by assumption, ?_⟩
            injection h with h2
            exact h2.symm
        · refine Or.inr ⟨_, by assumption, ?_⟩
          injection h with h2
          exact h2.symm

theorem executeStep_calls (m : ToolChainManager) (step : ToolChainStep)
    (context : ToolChainContext) (s : ExecState) (now : Int)
    (r : ToolResult) (s' : ExecState)
    (h : executeStep m step context s now = .ok (r, s')) :
    s'.calls = s.calls ∨ s'.calls = s.calls ++ [step.toolName] := by
  rcases executeStep_ok_cases m step context s now r s' h with ⟨hs', _⟩ | ⟨tool, _, hpair⟩
  · rw [hs']
    exact Or.inl rfl
  · have := congrArg (fun p => p.2.calls) hpair
    simp only at this
    rw [this, invokeStep_calls]
    exact Or.inr rfl

/-- Whether a step's execution fails, by throwing or by returning a
failed result. -/
def stepFails (m : ToolChainManager) (step : ToolChainStep)
    (context : ToolChainContext) (s : ExecState) (now : Int) : Bool :=
  match executeStep m step context s now with
  | .error _ => true
  | .ok (r, _) => !r.success

/-- C2: on an execution with no whole-chain cache hit, the result list is
at most as long as the step list, every entry except possibly the last
succeeded, and for a two-step chain `[A, B]` whose first step fails, the
returned list is a single failed entry and the collaborator is invoked at
most for `A` (never for `B`). -/
theorem chain_short_circuit_spec (m : ToolChainManager) (chain : ToolChain)
    (s : ExecState) (now : Int)
    (hmiss : ((Cache.get s.cache (Cache.generateChainKey chain.steps) now).1.bind
        decodeResults) = none) :
    (executeChain m chain s now).1.length ≤ chain.steps.length ∧
    (executeChain m chain s now).1.dropLast.all (·.success) = true ∧
    (∀ a b, chain.steps = [a, b] →
      stepFails m a ⟨[], []⟩
        ⟨(Cache.get s.cache (Cache.generateChainKey chain.steps) now).2, s.calls⟩
        now = true →
      (∃ r, (executeChain m chain s now).1 = [r] ∧ r.success = false) ∧
      ((executeChain m chain s now).2.calls = s.calls ∨
       (executeChain m chain s now).2.calls = s.calls ++ [a.toolName])) := by
  have hrun : executeChain m chain s now
      = runChain m chain.steps (Cache.generateChainKey chain.steps)
          ⟨(Cache.get s.cache (Cache.generateChainKey chain.steps) now).2, s.calls⟩
          now := by
    unfold executeChain
    cases hc : (Cache.get s.cache (Cache.generateChainKey chain.steps) now).1 with
    | none => rfl
    | some payload =>
      rw [hc] at hmiss
      have hdec : decodeResults payload = none := hmiss
      simp [hdec]
  rw [hrun]
  unfold runChain
  refine ⟨?_, ?_, ?_⟩
  · rw [storeChainResults_fst]
    simpa using chainLoop_length m now chain.steps ⟨[], []⟩ [] _
  · rw [storeChainResults_fst]
    exact chainLoop_dropLast_success m now chain.steps ⟨[], []⟩ [] _ rfl
  · intro a b hsteps hfail
    unfold stepFails at hfail
    rw [hsteps] at hfail ⊢
    unfold chainLoop
    cases hstep : executeStep m a ⟨[], []⟩
        ⟨(Cache.get s.cache (Cache.generateChainKey [a, b]) now).2, s.calls⟩
        now with
    | error msg =>
      constructor
      · refine ⟨⟨false, .null, some msg, none⟩, ?_, rfl⟩
        rw [storeChainResults_fst]
        rfl
      · rw [storeChainResults_calls]
        exact Or.inl rfl
    | ok rs' =>
      obtain ⟨r, s'⟩ := rs'
      rw [hstep] at hfail
      simp only [Bool.not_eq_true'] at hfail
      simp only [hfail, Bool.false_eq_true, if_false]
      constructor
      · refine ⟨r, ?_, hfail⟩
        rw [storeChainResults_fst]
        rfl
      · rw [storeChainResults_calls]
        exact executeStep_calls m a ⟨[], []⟩
          ⟨(Cache.get s.cache (Cache.generateChainKey [a, b]) now).2, s.calls⟩
          now r s' hstep

/-- A second step for the short-circuit scenario. -/
def bStep : ToolChainStep := ⟨"b", [], none⟩

/-- `[A (fails), B]`: the first step names an unregistered tool. -/
def twoStepChain : ToolChain := ⟨[missingStep, bStep], ⟨[], []⟩⟩

/-- Witness for C2 at the `[A (fails), B]` chain on a fresh state. -/
theorem chain_short_circuit_spec_witness :
    (executeChain emptyManager twoStepChain ExecState.initial 0).1.length ≤ 2 ∧
    (∃ r, (executeChain emptyManager twoStepChain ExecState.initial 0).1 = [r] ∧
      r.success = false) ∧
    ((executeChain emptyManager twoStepChain ExecState.initial 0).2.calls = [] ∨
     (executeChain emptyManager twoStepChain ExecState.initial 0).2.calls
       = [] ++ ["missing"]) := by
  have h := chain_short_circuit_spec emptyManager twoStepChain ExecState.initial 0 rfl
  have h3 := h.2.2 missingStep bStep rfl rfl
  exact ⟨h.1, h3.1, h3.2⟩

/-- C3: starting from a fresh state, if a chain execution returns results
that all succeeded, then re-running `executeChain` with the identical
steps returns the identical result list and the identical state — in
particular the invocation trace is unchanged, so the collaborator is not
invoked at all; the second run is served from the whole-chain cache entry
stored by the first. -/
theorem executeChain_cache_idempotent (m : ToolChainManager)
    (chain : ToolChain) (now : Int) (rs1 : List ToolResult) (s1 : ExecState)
    (h1 : executeChain m chain ExecState.initial now = (rs1, s1))
    (hall : rs1.all (·.success) = true) :
    executeChain m chain s1 now = (rs1, s1) := by
  have hred : executeChain m chain ExecState.initial now
      = runChain m chain.steps (Cache.generateChainKey chain.steps)
          ExecState.initial now := rfl
  rw [hred] at h1
  unfold runChain at h1
  rcases hloop : chainLoop m now chain.steps ⟨[], []⟩ [] ExecState.initial
    with ⟨res, s'⟩
  rw [hloop] at h1
  unfold storeChainResults at h1
  by_cases hres : res.all (·.success) = true
  · rw [if_pos hres] at h1
    injection h1 with ha hb
    subst ha
    have hget : Cache.get
        (Cache.set s'.cache (Cache.generateChainKey chain.steps)
          (encodeResults res) 3600 now)
        (Cache.generateChainKey chain.steps) now
        = (some (encodeResults res),
           Cache.set s'.cache (Cache.generateChainKey chain.steps)
             (encodeResults res) 3600 now) := by
      simp [Cache.get, Cache.set, Cache.insert, Cache.find]
    rw [← hb]
    unfold executeChain
    rw [hget]
    simp [decodeResults_encodeResults]
  · rw [if_neg hres] at h1
    injection h1 with ha hb
    subst ha
    exact absurd hall hres

/-- A registry with one `echo` tool whose collaborator returns the `msg`
parameter verbatim. -/
def echoManager : ToolChainManager :=
  ⟨[("echo", ⟨"echo", "echoes", ⟨[("msg", ⟨"string", none⟩)], some ["msg"]⟩,
      true, false⟩)],
   fun _ params _ =>
     match plookup params "msg" with
     | some v => .ok v
     | none => .error "no msg"⟩

/-- A one-step all-success chain for `echoManager`. -/
def echoChain : ToolChain := ⟨[⟨"echo", [("msg", JValue.str "hi")], none⟩], ⟨[], []⟩⟩

/-- Witness for C3: the echo chain re-executed from the state its first
run produced. -/
theorem executeChain_cache_idempotent_witness :
    executeChain echoManager echoChain
        (executeChain echoManager echoChain ExecState.initial 5).2 5
      = ((executeChain echoManager echoChain ExecState.initial 5).1,
         (executeChain echoManager echoChain ExecState.initial 5).2) :=
  executeChain_cache_idempotent echoManager echoChain 5 _ _ rfl (by decide)

theorem get_none_find (c : Cache) (key : String) (now : Int)
    (h : (Cache.get c key now).1 = none) :
    Cache.find (Cache.get c key now).2 key = none := by
  cases hf : Cache.find c key with
  | none => simp [Cache.get, hf]
  | some e =>
    by_cases hexp : now - e.timestamp > e.ttl * 1000
    · simp [Cache.get, hf, hexp, find_erase_self]
    · simp [Cache.get, hf, hexp] at h

theorem get_preserve_find (c : Cache) (k' K : String) (now : Int)
    (hne : k' ≠ K) :
    Cache.find (Cache.get c k' now).2 K = Cache.find c K := by
  cases hf : Cache.find c k' with
  | none => simp [Cache.get, hf]
  | some e =>
    by_cases hexp : now - e.timestamp > e.ttl * 1000
    · simp [Cache.get, hf, hexp, find_erase_of_ne c K k' hne]
    · simp [Cache.get, hf, hexp]

theorem invokeStep_cache_preserve (m : ToolChainManager)
    (tool : ChainableToolConfig) (step : ToolChainStep)
    (context : ToolChainContext) (st : ExecState) (now : Int) (K : String)
    (hne : stepCacheKey step ≠ K) :
    Cache.find (invokeStep m tool step context st now).2.cache K
      = Cache.find st.cache K := by
  unfold invokeStep
  cases m.execTool tool step.params context with
  | ok v => exact find_insert_of_ne _ K _ _ hne
  | error msg => rfl

theorem invokeStep_fail_cache (m : ToolChainManager)
    (tool : ChainableToolConfig) (step : ToolChainStep)
    (context : ToolChainContext) (st : ExecState) (now : Int)
    (h : (invokeStep m tool step context st now).1.success = false) :
    (invokeStep m tool step context st now).2.cache = st.cache := by
  unfold invokeStep at h ⊢
  cases hexec : m.execTool tool step.params context with
  | ok v =>
    simp only [hexec] at h
    cases h
  | error msg => rfl

theorem executeStep_cache_preserve (m : ToolChainManager)
    (step : ToolChainStep) (context : ToolChainContext) (s : ExecState)
    (now : Int) (r : ToolResult) (s' : ExecState) (K : String)
    (hne : stepCacheKey step ≠ K)
    (h : executeStep m step context s now = .ok (r, s')) :
    Cache.find s'.cache K = Cache.find s.cache K := by
  rcases executeStep_ok_cases m step context s now r s' h with
    ⟨hs', _⟩ | ⟨tool, _, hpair⟩
  · rw [hs']
    exact get_preserve_find s.cache (stepCacheKey step) K now hne
  · have hs' : s' = (invokeStep m tool step context
        ⟨(Cache.get s.cache (stepCacheKey step) now).2, s.calls⟩ now).2 :=
      congrArg Prod.snd hpair
    rw [hs', invokeStep_cache_preserve m tool step context _ now K hne]
    exact get_preserve_find s.cache (stepCacheKey step) K now hne

theorem chainLoop_cache_preserve (m : ToolChainManager) (now : Int)
    (K : String) :
    ∀ (steps : List ToolChainStep) (context : ToolChainContext)
      (acc : List ToolResult) (s : ExecState),
      (∀ st ∈ steps, stepCacheKey st ≠ K) →
      Cache.find (chainLoop m now steps context acc s).2.cache K
        = Cache.find s.cache K := by
  intro steps
  induction steps with
  | nil => intro context acc s _; rfl
  | cons step rest ih =>
    intro context acc s hK
    unfold chainLoop
    cases hstep : executeStep m step context s now with
    | error msg => rfl
    | ok rs' =>
      obtain ⟨r, s2⟩ := rs'
      have hpres := executeStep_cache_preserve m step context s now r s2 K
        (hK step (by simp)) hstep
      cases hr : r.success
      · simp only [hr, Bool.false_eq_true, if_false]
        exact hpres
      · simp only [hr, eq_self_iff_true, if_true]
        rw [ih (updateContext context r) (acc ++ [r]) s2
          (fun st hst => hK st (List.mem_cons_of_mem _ hst))]
        exact hpres

theorem mem_joinPieces_length :
    ∀ (l : List String) (p : String), p ∈ l →
      p.length ≤ (joinPieces l).length := by
  intro l
  induction l with
  | nil => intro p hp; cases hp
  | cons q t ih =>
    intro p hp
    cases t with
    | nil =>
      rcases List.mem_singleton.mp hp with rfl
      exact le_refl _
    | cons r t' =>
      rcases List.mem_cons.mp hp with rfl | hmem
      · show p.length ≤ (p ++ "|" ++ joinPieces (r :: t')).length
        rw [String.length_append, String.length_append]
        omega
      · have h2 := ih p hmem
        show p.length ≤ (q ++ "|" ++ joinPieces (r :: t')).length
        rw [String.length_append, String.length_append]
        omega

theorem mem_joinPieces_length_lt (p q : String) (rest : List String)
    (x : String) (hx : x ∈ p :: q :: rest) :
    x.length < (joinPieces (p :: q :: rest)).length := by
  have hj : (joinPieces (p :: q :: rest)).length
      = p.length + ("|" : String).length + (joinPieces (q :: rest)).length := by
    show (p ++ "|" ++ joinPieces (q :: rest)).length = _
    rw [String.length_append, String.length_append]
  have hone : ("|" : String).length = 1 := rfl
  rcases List.mem_cons.mp hx with rfl | hmem
  · omega
  · have h2 := mem_joinPieces_length (q :: rest) x hmem
    omega

theorem stepKey_ne_chainKey₂ (a b : ToolChainStep) (rest : List ToolChainStep)
    (st : ToolChainStep) (hst : st ∈ a :: b :: rest) :
    stepCacheKey st ≠ Cache.generateChainKey (a :: b :: rest) := by
  intro heq
  have hlt := mem_joinPieces_length_lt (stepCacheKey a) (stepCacheKey b)
    (rest.map stepCacheKey) (stepCacheKey st)
    (by
      rcases List.mem_cons.mp hst with rfl | hst2
      · exact List.mem_cons_self _ _
      · rcases List.mem_cons.mp hst2 with rfl | hst3
        · exact List.mem_cons_of_mem _ (List.mem_cons_self _ _)
        · exact List.mem_cons_of_mem _ (List.mem_cons_of_mem _
            (List.mem_map.mpr ⟨st, hst3, rfl⟩)))
  have hkey : Cache.generateChainKey (a :: b :: rest)
      = joinPieces (stepCacheKey a :: stepCacheKey b :: rest.map stepCacheKey) := rfl
  rw [← hkey] at hlt
  rw [heq] at hlt
  exact lt_irrefl _ hlt

theorem executeStep_fail_preserve (m : ToolChainManager)
    (step : ToolChainStep) (context : ToolChainContext) (s : ExecState)
    (now : Int) (r : ToolResult) (s' : ExecState) (K : String)
    (hfind : Cache.find s.cache K = none)
    (hfail : r.success = false)
    (h : executeStep m step context s now = .ok (r, s')) :
    Cache.find s'.cache K = none := by
  by_cases hne : stepCacheKey step = K
  · subst hne
    have hget : Cache.get s.cache (stepCacheKey step) now = (none, s.cache) := by
      simp [Cache.get, hfind]
    rcases executeStep_ok_cases m step context s now r s' h with
      ⟨hs', _⟩ | ⟨tool, _, hpair⟩
    · rw [hs', hget]
      exact hfind
    · have h1 : r = (invokeStep m tool step context
          ⟨(Cache.get s.cache (stepCacheKey step) now).2, s.calls⟩ now).1 :=
        congrArg Prod.fst hpair
      have h2 : s' = (invokeStep m tool step context
          ⟨(Cache.get s.cache (stepCacheKey step) now).2, s.calls⟩ now).2 :=
        congrArg Prod.snd hpair
      have hc := invokeStep_fail_cache m tool step context
        ⟨(Cache.get s.cache (stepCacheKey step) now).2, s.calls⟩ now
        (by rw [← h1]; exact hfail)
      rw [h2, hc, hget]
      exact hfind
  · rw [executeStep_cache_preserve m step context s now r s' K hne h]
    exact hfind

/-- C4 (amended): on a miss-path execution (the chain-key lookup returned
nothing — note that the lookup itself already evicts an expired
pre-existing entry, which is why a failing run can still change an expired
entry's fate), `executeChain` leaves a chain-level entry under the chain
key if and only if every collected result has `success = true`: on
all-success it stores the serialized result list with TTL 3600 s stamped
`now`; if any entry failed, there is no entry at the chain key afterwards
(no chain-level store happened). -/
theorem chain_store_iff_success (m : ToolChainManager) (chain : ToolChain)
    (s : ExecState) (now : Int)
    (hmiss : (Cache.get s.cache (Cache.generateChainKey chain.steps) now).1
      = none) :
    ((executeChain m chain s now).1.all (·.success) = true →
      Cache.find (executeChain m chain s now).2.cache
          (Cache.generateChainKey chain.steps)
        = some ⟨encodeResults (executeChain m chain s now).1, now, 3600, none⟩) ∧
    ((executeChain m chain s now).1.all (·.success) = false →
      Cache.find (executeChain m chain s now).2.cache
          (Cache.generateChainKey chain.steps) = none) := by
  have hred : executeChain m chain s now
      = runChain m chain.steps (Cache.generateChainKey chain.steps)
          ⟨(Cache.get s.cache (Cache.generateChainKey chain.steps) now).2,
           s.calls⟩ now := by
    unfold executeChain
    rw [hmiss]
  have hfind1 : Cache.find
      (Cache.get s.cache (Cache.generateChainKey chain.steps) now).2
      (Cache.generateChainKey chain.steps) = none :=
    get_none_find _ _ _ hmiss
  rw [hred]
  unfold runChain
  rcases hloop : chainLoop m now chain.steps ⟨[], []⟩ []
      ⟨(Cache.get s.cache (Cache.generateChainKey chain.steps) now).2,
       s.calls⟩ with ⟨res, s'⟩
  unfold storeChainResults
  by_cases hres : res.all (·.success) = true
  · rw [if_pos hres]
    constructor
    · intro _
      show Cache.find
          (Cache.set s'.cache (Cache.generateChainKey chain.steps)
            (encodeResults res) 3600 now)
          (Cache.generateChainKey chain.steps)
        = some ⟨encodeResults res, now, 3600, none⟩
      exact find_insert_self _ _ _
    · intro hcontra
      have hc : res.all (·.success) = false := hcontra
      rw [hres] at hc
      cases hc
  · rw [if_neg hres]
    have hresf : res.all (·.success) = false := by
      cases hab : res.all (·.success)
      · rfl
      · exact absurd hab hres
    constructor
    · intro hcontra
      have hc : res.all (·.success) = true := hcontra
      exact absurd hc hres
    · intro _
      show Cache.find s'.cache (Cache.generateChainKey chain.steps) = none
      cases hsteps : chain.steps with
      | nil =>
        rw [hsteps] at hloop
        unfold chainLoop at hloop
        injection hloop with h1 h2
        rw [← h1] at hresf
        cases hresf
      | cons a t =>
        cases t with
        | nil =>
          rw [hsteps] at hloop hfind1
          unfold chainLoop at hloop
          cases hstep : executeStep m a ⟨[], []⟩
              ⟨(Cache.get s.cache (Cache.generateChainKey [a]) now).2, s.calls⟩
              now with
          | error msg =>
            simp only [hstep, List.nil_append] at hloop
            injection hloop with h1 h2
            rw [← h2]
            exact hfind1
          | ok rs2 =>
            obtain ⟨r, s2⟩ := rs2
            simp only [hstep, chainLoop, List.nil_append, ite_self] at hloop
            injection hloop with h1 h2
            rw [← h1] at hresf
            simp only [List.all_cons, List.all_nil, Bool.and_true] at hresf
            rw [← h2]
            exact executeStep_fail_preserve m a ⟨[], []⟩
              ⟨(Cache.get s.cache (Cache.generateChainKey [a]) now).2, s.calls⟩
              now r s2 (Cache.generateChainKey [a]) hfind1 hresf hstep
        | cons b t' =>
          rw [hsteps] at hloop hfind1
          have hp := chainLoop_cache_preserve m now
            (Cache.generateChainKey (a :: b :: t')) (a :: b :: t') ⟨[], []⟩ []
            ⟨(Cache.get s.cache (Cache.generateChainKey (a :: b :: t')) now).2,
             s.calls⟩
            (fun st hst => stepKey_ne_chainKey₂ a b t' st hst)
          rw [hloop] at hp
          rw [hp]
          exact hfind1

/-- A state holding an expired chain-level entry under the one-step
missing-tool chain's key (`"missing:\x7b\x7d"` is that chain's generated
key). -/
def expiredState : ExecState :=
  ⟨[("missing:\x7b\x7d", ⟨JValue.str "junk", 0, 0, none⟩)], []⟩

/-- Counterexample to C4 as stated: this execution's result list contains
a failed entry, yet the chain-level cache entry for the chain's key is
*not* unchanged — it existed before the call and is gone afterwards,
because the chain-key lookup lazily evicts the expired entry. -/
theorem chain_store_counterexample :
    ((executeChain emptyManager missingChain expiredState 1).1.all
      (·.success)) = false ∧
    Cache.find expiredState.cache "missing:\x7b\x7d"
      = some ⟨JValue.str "junk", 0, 0, none⟩ ∧
    Cache.generateChainKey missingChain.steps = "missing:\x7b\x7d" ∧
    Cache.find (executeChain emptyManager missingChain expiredState 1).2.cache
      "missing:\x7b\x7d" = none :=
  ⟨rfl, rfl, rfl, rfl⟩

/-- Witness for the amended C4: the all-success echo chain stores its
serialized result list under its chain key. -/
theorem chain_store_iff_success_witness :
    Cache.find (executeChain echoManager echoChain ExecState.initial 5).2.cache
        (Cache.generateChainKey echoChain.steps)
      = some ⟨encodeResults
            (executeChain echoManager echoChain ExecState.initial 5).1,
          5, 3600, none⟩ :=
  (chain_store_iff_success echoManager echoChain ExecState.initial 5 rfl).1
    (by decide)
